import Mathlib

/-
Verification of the camera-alignment-table renderer (src/rect.js and
src/index.js) against its design document.

Modelling conventions for the shallow embedding:
  * JavaScript numbers are modelled as exact real numbers; `Math.floor` is
    `Int.floor`, `Math.ceil` is `Int.ceil`, `Math.pow` with a real exponent is
    `Real.rpow`, `Math.sin` / `Math.asin` / `Math.PI` are `Real.sin` /
    `Real.arcsin` / `Real.pi`.
  * JavaScript division by zero yields ±Infinity (NaN for 0/0) whereas in
    Lean `x / 0 = 0`; the single place where this changes a branch outcome
    (the `outR / startR < 20` test in `drawTargetMoire`) is modelled
    explicitly by `jsDivLt20` below so that the Lean branch agrees with the
    JavaScript one.
  * The canvas 2D context is modelled as a list of paint operations
    (`PaintOp`) produced by the drawing functions, plus a pointwise canvas
    semantics `applyOp` : each operation repaints the points inside its
    region (clipped to the canvas bounds) and leaves every other point
    untouched.  Ambient context state that the code sets explicitly before
    each stroke (strokeStyle, lineWidth, line dash) is carried inside each
    emitted operation.
  * The two hand-rolled `while` loops (ring progression in
    `drawTargetMoire`, dashed lines in `drawChessMoire`) are modelled with an
    explicit fuel argument; the fuel actually passed is proved sufficient
    (the result is stable under any larger fuel).
-/

open Classical Real

/-- `Rect` (src/rect.js): a plain record of `topLeftX`, `topLeftY`, `width`,
`height`. -/
structure Rect where
  topLeftX : ℝ
  topLeftY : ℝ
  width : ℝ
  height : ℝ

/-- RGBA color with real components in [0,1]. -/
structure Color where
  r : ℝ
  g : ℝ
  b : ℝ
  a : ℝ

/-- CSS `#000`. -/
def black : Color := ⟨0, 0, 0, 1⟩

/-- CSS `#fff`. -/
def white : Color := ⟨1, 1, 1, 1⟩

/-- CSS `#fff0` (fully transparent white). -/
def whiteClear : Color := ⟨1, 1, 1, 0⟩

/-- The fully transparent color left behind by `clearRect`. -/
def transparent : Color := ⟨0, 0, 0, 0⟩

/-- `getPPLineWidth` (index.js:82-84): `return value % 2 ? 3 : 4`.
For a real `value`, the JS remainder `value % 2` is zero exactly when
`value / 2` is an integer, i.e. when `Int.fract (value / 2) = 0`. -/
noncomputable def getPPLineWidth (value : ℝ) : ℝ :=
  if Int.fract (value / 2) = 0 then 4 else 3

/-- Frame layout from `drawTable` (index.js:216-220):
`frameHeight = canvasHeight`, `frameWidth = Math.floor(frameHeight * 4 / 3)`,
`borderWidth = Math.floor((canvasWidth - frameWidth) / 2)`,
`frameRect = new Rect(borderWidth, 0, frameWidth, canvasHeight)`. -/
noncomputable def frameRect (W H : ℝ) : Rect :=
  { topLeftX := ((⌊(W - ((⌊H * 4 / 3⌋ : ℤ) : ℝ)) / 2⌋ : ℤ) : ℝ)
    topLeftY := 0
    width := ((⌊H * 4 / 3⌋ : ℤ) : ℝ)
    height := H }

/-- `getCornerTargetSize` (index.js:198-203): closed-form diameter of the
circle inscribed in the rectangle corner. -/
noncomputable def getCornerTargetSize (rect : Rect) : ℝ :=
  let a := rect.width / 2
  let b := rect.height / 2
  let y := π / 4 - Real.arcsin (-(b - a) / b)
  b - b * Real.sin y

/-- The outer radius passed to the center ring target in `drawTable`
(index.js:225): `frameRect.height / 2`. -/
noncomputable def centerTargetOutR (W H : ℝ) : ℝ := (frameRect W H).height / 2

/-- `cornerTargetRad` in `drawTable` (index.js:227):
`getCornerTargetSize(frameRect) / 2`. -/
noncomputable def cornerTargetRad (W H : ℝ) : ℝ :=
  getCornerTargetSize (frameRect W H) / 2

/-- C9: the pixel-perfect line width resolver returns 3 on odd and 4 on even
nonnegative integers. -/
theorem C9_pp_line_width (v : ℕ) :
    (Odd v → getPPLineWidth (v : ℝ) = 3) ∧ (Even v → getPPLineWidth (v : ℝ) = 4) := by
  constructor
  · rintro ⟨k, hk⟩
    have hv : ((v : ℝ)) / 2 = ((k : ℤ) : ℝ) + 1 / 2 := by
      subst hk; push_cast; ring
    have hfr : Int.fract ((v : ℝ) / 2) = 1 / 2 := by
      rw [hv, add_comm, Int.fract_add_int]
      exact Int.fract_eq_self.mpr (by norm_num)
    unfold getPPLineWidth
    rw [if_neg (by rw [hfr]; norm_num)]
  · rintro ⟨k, hk⟩
    have hv : ((v : ℝ)) / 2 = ((k : ℤ) : ℝ) := by
      subst hk; push_cast; ring
    have hfr : Int.fract ((v : ℝ) / 2) = 0 := by
      rw [hv, Int.fract_intCast]
    unfold getPPLineWidth
    rw [if_pos hfr]

theorem C9_pp_line_width_witness :
    getPPLineWidth ((5 : ℕ) : ℝ) = 3 ∧ getPPLineWidth ((8 : ℕ) : ℝ) = 4 :=
  ⟨(C9_pp_line_width 5).1 (by decide), (C9_pp_line_width 8).2 (by decide)⟩

lemma floor_900_mul : (⌊(900 : ℝ) * 4 / 3⌋ : ℤ) = 1200 := by
  have h : (900 : ℝ) * 4 / 3 = ((1200 : ℤ) : ℝ) := by norm_num
  rw [h, Int.floor_intCast]

lemma frameRect_1200_900 : frameRect 1200 900 = ⟨0, 0, 1200, 900⟩ := by
  unfold frameRect
  rw [floor_900_mul]
  have h : ((1200 : ℝ) - ((1200 : ℤ) : ℝ)) / 2 = ((0 : ℤ) : ℝ) := by push_cast; ring
  rw [h, Int.floor_intCast]
  norm_num

lemma frameRect_1000_900 : frameRect 1000 900 = ⟨-100, 0, 1200, 900⟩ := by
  unfold frameRect
  rw [floor_900_mul]
  have h : ((1000 : ℝ) - ((1200 : ℤ) : ℝ)) / 2 = ((-100 : ℤ) : ℝ) := by push_cast; ring
  rw [h, Int.floor_intCast]
  norm_num

/-- C1: for every surface size with positive height the frame rect has
height H, width ⌊H·4/3⌋, topLeftY 0 and topLeftX ⌊(W − width)/2⌋; the
1200×900 scenario yields the frame ⟨0,0,1200,900⟩ and center ring outer
radius 450. -/
theorem C1_frame_layout :
    (∀ W H : ℝ, 0 < H →
      (frameRect W H).height = H ∧
      (frameRect W H).width = ((⌊H * 4 / 3⌋ : ℤ) : ℝ) ∧
      (frameRect W H).topLeftY = 0 ∧
      (frameRect W H).topLeftX = ((⌊(W - ((⌊H * 4 / 3⌋ : ℤ) : ℝ)) / 2⌋ : ℤ) : ℝ)) ∧
    frameRect 1200 900 = ⟨0, 0, 1200, 900⟩ ∧
    centerTargetOutR 1200 900 = 450 := by
  refine ⟨fun W H _ => ⟨rfl, rfl, rfl, rfl⟩, frameRect_1200_900, ?_⟩
  show (900 : ℝ) / 2 = 450
  norm_num

theorem C1_frame_layout_witness :
    (0 : ℝ) < 900 ∧
    ((frameRect 1200 900).height = 900 ∧
      (frameRect 1200 900).width = ((⌊(900 : ℝ) * 4 / 3⌋ : ℤ) : ℝ) ∧
      (frameRect 1200 900).topLeftY = 0 ∧
      (frameRect 1200 900).topLeftX =
        ((⌊((1200 : ℝ) - ((⌊(900 : ℝ) * 4 / 3⌋ : ℤ) : ℝ)) / 2⌋ : ℤ) : ℝ)) :=
  ⟨by norm_num, C1_frame_layout.1 1200 900 (by norm_num)⟩

/-- C2: the corner geometry solver returns exactly the closed-form value
`b − b·sin(π/4 − asin(−(b−a)/b))`; half of the returned diameter is the
corner-target radius used by the composer; for a square rect the formula
reduces to `b − b·sin(π/4)`. -/
theorem C2_corner_formula (rect : Rect) (hb : 0 < rect.height / 2) :
    getCornerTargetSize rect =
      rect.height / 2 -
        rect.height / 2 *
          Real.sin (π / 4 -
            Real.arcsin (-(rect.height / 2 - rect.width / 2) / (rect.height / 2))) ∧
    (∀ W H : ℝ, cornerTargetRad W H = getCornerTargetSize (frameRect W H) / 2) ∧
    (rect.width = rect.height →
      getCornerTargetSize rect =
        rect.height / 2 - rect.height / 2 * Real.sin (π / 4)) := by
  refine ⟨rfl, fun _ _ => rfl, fun hsq => ?_⟩
  have _ := hb
  unfold getCornerTargetSize
  rw [hsq]
  simp [Real.arcsin_zero]

theorem C2_corner_formula_witness :
    (0 : ℝ) < (600 : ℝ) / 2 ∧
    getCornerTargetSize ⟨0, 0, 600, 600⟩ =
      (600 : ℝ) / 2 - (600 : ℝ) / 2 * Real.sin (π / 4) := by
  have hb : (0 : ℝ) < (Rect.mk 0 0 600 600).height / 2 := by norm_num
  exact ⟨by norm_num, (C2_corner_formula ⟨0, 0, 600, 600⟩ hb).2.2 rfl⟩

/-- The canvas paint operations emitted by the drawing functions.  Each
operation carries the fill/stroke state the code has set on the context at
the moment it is issued. -/
inductive PaintOp where
  | clearRect (x y w h : ℝ)
  | fillRect (c : Color) (x y w h : ℝ)
  | gradFillRect (gx gy inR outR x y w h : ℝ)
  | strokeLine (c : Color) (lineW : ℝ) (dash : Option (ℝ × ℝ)) (fromX fromY toX toY : ℝ)

/-- The `(curR, prgValue)` loop state at which `drawTargetMoire` paints one
ring (index.js:137-145). -/
structure RingStep where
  curR : ℝ
  prg : ℝ

/-- JS truthiness of `outR / startR < 20` (index.js:126).  In JavaScript
`x / 0` is `±Infinity` (`NaN` for `0 / 0`), so for `startR = 0` the test
holds exactly when `outR < 0`. -/
def jsDivLt20 (outR startR : ℝ) : Prop :=
  if startR = 0 then outR < 0 else outR / startR < 20

/-- The starting radius of `drawTargetMoire` (index.js:125-128):
`startR = Math.floor(rect.height / 50)`, overridden to `outR / 10` when
`outR / startR < 20`. -/
noncomputable def moireStartR (outR : ℝ) (rect : Rect) : ℝ :=
  if jsDivLt20 outR ((⌊rect.height / 50⌋ : ℤ) : ℝ) then outR / 10
  else ((⌊rect.height / 50⌋ : ℤ) : ℝ)

/-- The common ratio `q = Math.pow(1 / startR, 1 / (outR / 5))`
(index.js:130). -/
noncomputable def moireQ (outR : ℝ) (rect : Rect) : ℝ :=
  Real.rpow (1 / moireStartR outR rect) (1 / (outR / 5))

/-- Fuel sufficient for the ring loop: a function of `outR` alone. -/
noncomputable def moireBound (outR : ℝ) : ℕ := (⌈outR⌉).toNat + 1

/-- The `while (curR <= outR)` ring loop of `drawTargetMoire`
(index.js:132-148), with explicit fuel.  Each iteration recomputes
`prgValue = startR * Math.pow(q, step - 1)`, exits on
`curR + prgValue > outR`, `prgValue <= 1` or `curR < 5`, and otherwise
paints one ring and advances `curR += prgValue; step++`. -/
noncomputable def moireLoop (outR startR q : ℝ) : ℕ → ℝ → ℕ → List RingStep
  | 0, _, _ => []
  | fuel + 1, curR, step =>
    if curR ≤ outR then
      let prg := startR * q ^ (step - 1)
      if outR < curR + prg then []
      else if prg ≤ 1 then []
      else if curR < 5 then []
      else ⟨curR, prg⟩ :: moireLoop outR startR q fuel (curR + prg) (step + 1)
    else []

/-- The rings painted by one `drawTargetMoire` call. -/
noncomputable def moireSteps (outR : ℝ) (rect : Rect) : List RingStep :=
  moireLoop outR (moireStartR outR rect) (moireQ outR rect) (moireBound outR)
    (moireStartR outR rect) 1

/-- `drawTargetMoire` (index.js:124-149): each painted ring is a radial
gradient from `curR - 5` to `curR + prgValue` centered at `(x, y)`, filled
over `rect`. -/
noncomputable def drawTargetMoire (x y outR : ℝ) (rect : Rect) : List PaintOp :=
  (moireSteps outR rect).map fun s =>
    PaintOp.gradFillRect x y (s.curR - 5) (s.curR + s.prg)
      rect.topLeftX rect.topLeftY rect.width rect.height

lemma moireLoop_mem {outR startR q : ℝ} :
    ∀ (fuel : ℕ) (curR : ℝ) (step : ℕ) (s : RingStep),
      s ∈ moireLoop outR startR q fuel curR step →
      5 ≤ s.curR ∧ 1 < s.prg ∧ s.curR + s.prg ≤ outR := by
  intro fuel
  induction fuel with
  | zero => intro curR step s hs; simp [moireLoop] at hs
  | succ n ih =>
    intro curR step s hs
    simp only [moireLoop] at hs
    by_cases h1 : curR ≤ outR
    · rw [if_pos h1] at hs
      by_cases h2 : outR < curR + startR * q ^ (step - 1)
      · rw [if_pos h2] at hs; simp at hs
      · rw [if_neg h2] at hs
        by_cases h3 : startR * q ^ (step - 1) ≤ 1
        · rw [if_pos h3] at hs; simp at hs
        · rw [if_neg h3] at hs
          by_cases h4 : curR < 5
          · rw [if_pos h4] at hs; simp at hs
          · rw [if_neg h4] at hs
            rcases List.mem_cons.mp hs with rfl | htail
            · exact ⟨not_lt.mp h4, not_le.mp h3, not_lt.mp h2⟩
            · exact ih _ _ s htail
    · rw [if_neg h1] at hs; simp at hs

lemma moireLoop_length {outR startR q : ℝ} :
    ∀ (fuel : ℕ) (curR : ℝ) (step : ℕ),
      (moireLoop outR startR q fuel curR step).length ≤ fuel := by
  intro fuel
  induction fuel with
  | zero => intro curR step; simp [moireLoop]
  | succ n ih =>
    intro curR step
    simp only [moireLoop]
    by_cases h1 : curR ≤ outR
    · rw [if_pos h1]
      by_cases h2 : outR < curR + startR * q ^ (step - 1)
      · rw [if_pos h2]; simp
      · rw [if_neg h2]
        by_cases h3 : startR * q ^ (step - 1) ≤ 1
        · rw [if_pos h3]; simp
        · rw [if_neg h3]
          by_cases h4 : curR < 5
          · rw [if_pos h4]; simp
          · rw [if_neg h4]
            simpa [List.length_cons] using Nat.succ_le_succ (ih _ _)
    · rw [if_neg h1]; simp

lemma moireLoop_congr {outR startR q : ℝ} :
    ∀ (f₁ f₂ : ℕ) (curR : ℝ) (step : ℕ),
      outR - curR < (f₁ : ℝ) → outR - curR < (f₂ : ℝ) →
      moireLoop outR startR q f₁ curR step = moireLoop outR startR q f₂ curR step := by
  intro f₁
  induction f₁ with
  | zero =>
    intro f₂ curR step h1 _
    have hgt : outR < curR := by push_cast at h1; linarith
    cases f₂ with
    | zero => rfl
    | succ m =>
      simp only [moireLoop]
      rw [if_neg (not_le.mpr hgt)]
  | succ n ih =>
    intro f₂ curR step h1 h2
    cases f₂ with
    | zero =>
      have hgt : outR < curR := by push_cast at h2; linarith
      simp only [moireLoop]
      rw [if_neg (not_le.mpr hgt)]
    | succ m =>
      simp only [moireLoop]
      by_cases hc : curR ≤ outR
      · rw [if_pos hc, if_pos hc]
        by_cases hr : outR < curR + startR * q ^ (step - 1)
        · rw [if_pos hr, if_pos hr]
        · rw [if_neg hr, if_neg hr]
          by_cases hp : startR * q ^ (step - 1) ≤ 1
          · rw [if_pos hp, if_pos hp]
          · rw [if_neg hp, if_neg hp]
            by_cases h5 : curR < 5
            · rw [if_pos h5, if_pos h5]
            · rw [if_neg h5, if_neg h5]
              have hgt1 : 1 < startR * q ^ (step - 1) := not_le.mp hp
              congr 1
              apply ih m
              · push_cast at h1 ⊢
                linarith
              · push_cast at h2 ⊢
                linarith
      · rw [if_neg hc, if_neg hc]

lemma lt_toNat_ceil_add_one (x : ℝ) : x < ((⌈x⌉.toNat : ℕ) : ℝ) + 1 := by
  rcases le_or_lt x 0 with h | h
  · have h0 : (0 : ℝ) ≤ ((⌈x⌉.toNat : ℕ) : ℝ) := Nat.cast_nonneg _
    linarith
  · have h1 : x ≤ ((⌈x⌉ : ℤ) : ℝ) := Int.le_ceil x
    have h2 : ((⌈x⌉ : ℤ) : ℝ) = ((⌈x⌉.toNat : ℕ) : ℝ) := by
      norm_cast
      exact (Int.toNat_of_nonneg (Int.ceil_nonneg h.le)).symm
    linarith

lemma one_le_moireBound (outR : ℝ) : (1 : ℝ) ≤ ((moireBound outR : ℕ) : ℝ) := by
  unfold moireBound
  push_cast
  have h0 : (0 : ℝ) ≤ ((⌈outR⌉.toNat : ℕ) : ℝ) := Nat.cast_nonneg _
  linarith

lemma outR_lt_moireBound (outR : ℝ) : outR < ((moireBound outR : ℕ) : ℝ) := by
  unfold moireBound
  push_cast
  exact lt_toNat_ceil_add_one outR

lemma moireStartR_lt_bound (outR : ℝ) (rect : Rect) :
    outR - moireStartR outR rect < ((moireBound outR : ℕ) : ℝ) := by
  have hb1 := one_le_moireBound outR
  have hbout := outR_lt_moireBound outR
  unfold moireStartR
  split_ifs with hov
  · rcases le_or_lt outR 0 with h0 | h0
    · have h : outR - outR / 10 ≤ 0 := by linarith
      linarith
    · have h : outR - outR / 10 ≤ outR := by linarith
      linarith
  · unfold jsDivLt20 at hov
    by_cases hz : ((⌊rect.height / 50⌋ : ℤ) : ℝ) = 0
    · rw [if_pos hz] at hov
      push_neg at hov
      rw [hz]
      linarith
    · rw [if_neg hz] at hov
      push_neg at hov
      rcases lt_or_gt_of_ne hz with hneg | hpos
      · have hmul := mul_le_mul_of_nonpos_right hov (le_of_lt hneg)
        rw [div_mul_cancel₀ _ hz] at hmul
        nlinarith
      · have h : outR - ((⌊rect.height / 50⌋ : ℤ) : ℝ) ≤ outR := by linarith
        linarith

lemma moireStartR_gt_of_neg (outR : ℝ) (rect : Rect) (h : outR < 0) :
    outR < moireStartR outR rect := by
  unfold moireStartR
  split_ifs with hov
  · linarith
  · unfold jsDivLt20 at hov
    by_cases hz : ((⌊rect.height / 50⌋ : ℤ) : ℝ) = 0
    · rw [if_pos hz] at hov
      exact absurd h hov
    · rw [if_neg hz] at hov
      push_neg at hov
      rcases lt_or_gt_of_ne hz with hneg | hpos
      · have hmul := mul_le_mul_of_nonpos_right hov (le_of_lt hneg)
        rw [div_mul_cancel₀ _ hz] at hmul
        nlinarith
      · exfalso
        have hd : outR / ((⌊rect.height / 50⌋ : ℤ) : ℝ) < 0 :=
          div_neg_of_neg_of_pos h hpos
        linarith

lemma moireStartR_zero (rect : Rect) : moireStartR 0 rect = 0 := by
  unfold moireStartR
  split_ifs with hov
  · norm_num
  · unfold jsDivLt20 at hov
    by_cases hz : ((⌊rect.height / 50⌋ : ℤ) : ℝ) = 0
    · exact hz
    · rw [if_neg hz] at hov
      exact absurd (by rw [zero_div]; norm_num) hov

lemma moireSteps_eq_nil {outR : ℝ} (rect : Rect) (h : outR ≤ 0) :
    moireSteps outR rect = [] := by
  rcases lt_or_eq_of_le h with hlt | heq
  · have hgt := moireStartR_gt_of_neg outR rect hlt
    unfold moireSteps moireBound
    simp only [moireLoop]
    rw [if_neg (not_le.mpr hgt)]
  · subst heq
    unfold moireSteps moireBound
    rw [moireStartR_zero]
    simp only [moireLoop]
    rw [if_pos le_rfl]
    norm_num

/-- C3: every painted ring satisfies `curR ≥ 5`, `prgValue > 1` and
`curR + prgValue ≤ outR` at its paint step (the three loop guards run
before any paint), and `outR ≤ 0` paints zero rings. -/
theorem C3_ring_guards (x y outR : ℝ) (rect : Rect) :
    (∀ s ∈ moireSteps outR rect, 5 ≤ s.curR ∧ 1 < s.prg ∧ s.curR + s.prg ≤ outR) ∧
    (outR ≤ 0 → drawTargetMoire x y outR rect = []) := by
  constructor
  · intro s hs
    unfold moireSteps at hs
    exact moireLoop_mem _ _ _ s hs
  · intro h
    unfold drawTargetMoire
    rw [moireSteps_eq_nil rect h]
    rfl

theorem C3_ring_guards_witness :
    (∀ s ∈ moireSteps (-1 : ℝ) ⟨0, 0, 100, 100⟩,
      5 ≤ s.curR ∧ 1 < s.prg ∧ s.curR + s.prg ≤ (-1 : ℝ)) ∧
    drawTargetMoire 0 0 (-1 : ℝ) ⟨0, 0, 100, 100⟩ = [] :=
  ⟨(C3_ring_guards 0 0 (-1) ⟨0, 0, 100, 100⟩).1,
   (C3_ring_guards 0 0 (-1) ⟨0, 0, 100, 100⟩).2 (by norm_num)⟩

/-- C4: the ring loop is stable at fuel `moireBound outR` (a bound depending
only on `outR`), paints at most `moireBound outR` rings, and degenerate
inputs `outR ≤ 0` paint zero rings. -/
theorem C4_ring_bounded (x y outR : ℝ) (rect : Rect) :
    (∀ fuel : ℕ, moireBound outR ≤ fuel →
      moireLoop outR (moireStartR outR rect) (moireQ outR rect) fuel
        (moireStartR outR rect) 1 = moireSteps outR rect) ∧
    (moireSteps outR rect).length ≤ moireBound outR ∧
    (outR ≤ 0 → drawTargetMoire x y outR rect = []) := by
  refine ⟨?_, ?_, ?_⟩
  · intro fuel hfuel
    unfold moireSteps
    apply moireLoop_congr
    · calc outR - moireStartR outR rect < ((moireBound outR : ℕ) : ℝ) :=
        moireStartR_lt_bound outR rect
      _ ≤ (fuel : ℝ) := Nat.cast_le.mpr hfuel
    · exact moireStartR_lt_bound outR rect
  · exact moireLoop_length _ _ _
  · intro h
    unfold drawTargetMoire
    rw [moireSteps_eq_nil rect h]
    rfl

theorem C4_ring_bounded_witness :
    moireBound (450 : ℝ) ≤ moireBound (450 : ℝ) ∧
    moireLoop 450 (moireStartR 450 ⟨0, 0, 1200, 900⟩) (moireQ 450 ⟨0, 0, 1200, 900⟩)
      (moireBound 450) (moireStartR 450 ⟨0, 0, 1200, 900⟩) 1 =
      moireSteps 450 ⟨0, 0, 1200, 900⟩ :=
  ⟨le_refl _, (C4_ring_bounded 0 0 450 ⟨0, 0, 1200, 900⟩).1 (moireBound 450) (le_refl _)⟩

/-- `cellSize` in `drawChessMoire` (index.js:159):
`getPPLineWidth(rect.height) * 2`. -/
noncomputable def chessCell (rect : Rect) : ℝ := getPPLineWidth rect.height * 2

/-- Fuel sufficient for the dashed-line loop of `drawChessMoire`. -/
noncomputable def chessFuel (rect : Rect) : ℕ := (⌈rect.height⌉).toNat + 1

/-- The `while (lineY <= rect.height)` loop of `drawChessMoire`
(index.js:164-171), with explicit fuel.  Each iteration strokes one dashed
line from `(rect.topLeftX + startOffset, lineY)` to
`(rect.topLeftX + rect.width, lineY)` and then advances
`lineY += cellSize` and toggles
`startOffset = startOffset == cellSize ? 0 : cellSize`. -/
noncomputable def chessLoop (rect : Rect) (cell : ℝ) : ℕ → ℝ → ℝ → List PaintOp
  | 0, _, _ => []
  | fuel + 1, lineY, startOffset =>
    if lineY ≤ rect.height then
      PaintOp.strokeLine black cell (some (cell, cell))
          (rect.topLeftX + startOffset) lineY (rect.topLeftX + rect.width) lineY ::
        chessLoop rect cell fuel (lineY + cell) (if startOffset = cell then 0 else cell)
    else []

/-- `drawChessMoire` (index.js:157-172): strokeStyle `#000`,
lineWidth `cellSize`, dash `[cellSize, cellSize]`, starting at
`lineY = cellSize / 2` with `startOffset = 0`. -/
noncomputable def drawChessMoire (rect : Rect) : List PaintOp :=
  chessLoop rect (chessCell rect) (chessFuel rect) (chessCell rect / 2) 0

/-- Specification side: the number of lines the chess loop draws. -/
noncomputable def chessCountSpec (rect : Rect) : ℕ :=
  if chessCell rect / 2 ≤ rect.height then
    (⌊(rect.height - chessCell rect / 2) / chessCell rect⌋).toNat + 1
  else 0

/-- Specification side: the k-th dashed line (0-indexed): start offset 0 on
even k and `cellSize` on odd k, at height `cellSize/2 + k·cellSize`. -/
noncomputable def chessLineSpec (rect : Rect) (k : ℕ) : PaintOp :=
  PaintOp.strokeLine black (chessCell rect) (some (chessCell rect, chessCell rect))
    (rect.topLeftX + if k % 2 = 0 then 0 else chessCell rect)
    (chessCell rect / 2 + (k : ℝ) * chessCell rect)
    (rect.topLeftX + rect.width)
    (chessCell rect / 2 + (k : ℝ) * chessCell rect)

lemma chessCell_eq (rect : Rect) : chessCell rect = 6 ∨ chessCell rect = 8 := by
  unfold chessCell getPPLineWidth
  split_ifs with h
  · right; norm_num
  · left; norm_num

lemma chessCell_pos (rect : Rect) : 0 < chessCell rect := by
  rcases chessCell_eq rect with h | h <;> rw [h] <;> norm_num

lemma chessLoop_closed (rect : Rect) (cell : ℝ) (hc : 0 < cell) :
    ∀ (fuel : ℕ) (lineY off : ℝ), (off = 0 ∨ off = cell) →
      rect.height < lineY + (fuel : ℝ) * cell →
      chessLoop rect cell fuel lineY off =
        (List.range (if lineY ≤ rect.height
            then (⌊(rect.height - lineY) / cell⌋).toNat + 1 else 0)).map
          fun (k : ℕ) =>
            PaintOp.strokeLine black cell (some (cell, cell))
              (rect.topLeftX + if k % 2 = 0 then off else if off = cell then 0 else cell)
              (lineY + (k : ℝ) * cell) (rect.topLeftX + rect.width)
              (lineY + (k : ℝ) * cell) := by
  intro fuel
  induction fuel with
  | zero =>
    intro lineY off _ hbound
    have hgt : rect.height < lineY := by push_cast at hbound; linarith
    rw [if_neg (not_le.mpr hgt)]
    simp [chessLoop]
  | succ n ih =>
    intro lineY off hof hbound
    by_cases hy : lineY ≤ rect.height
    · rw [if_pos hy]
      simp only [chessLoop]
      rw [if_pos hy]
      have hbound' : rect.height < (lineY + cell) + (n : ℝ) * cell := by
        push_cast at hbound
        linarith
      have hof' : (if off = cell then (0 : ℝ) else cell) = 0 ∨
          (if off = cell then (0 : ℝ) else cell) = cell := by
        split_ifs <;> simp
      rw [ih (lineY + cell) _ hof' hbound']
      rw [List.range_succ_eq_map, List.map_cons, List.map_map]
      congr 1
      · simp
      · by_cases hy2 : lineY + cell ≤ rect.height
        · rw [if_pos hy2]
          have hkey : (rect.height - (lineY + cell)) / cell =
              (rect.height - lineY) / cell - 1 := by
            have hr : rect.height - (lineY + cell) = (rect.height - lineY) - cell := by
              ring
            rw [hr, sub_div, div_self hc.ne']
          have hfl : ⌊(rect.height - (lineY + cell)) / cell⌋ =
              ⌊(rect.height - lineY) / cell⌋ - 1 := by
            rw [hkey, Int.floor_sub_one]
          have h1le : 1 ≤ ⌊(rect.height - lineY) / cell⌋ := by
            apply Int.le_floor.mpr
            push_cast
            rw [le_div_iff₀ hc]
            linarith
          have hcnteq : (⌊(rect.height - lineY) / cell⌋ - 1).toNat + 1 =
              (⌊(rect.height - lineY) / cell⌋).toNat := by omega
          rw [hfl, hcnteq]
          apply List.map_congr_left
          intro k _
          simp only [Function.comp_apply]
          rw [PaintOp.strokeLine.injEq]
          have hco : lineY + cell + (k : ℝ) * cell = lineY + ((Nat.succ k : ℕ) : ℝ) * cell := by
            push_cast
            ring
          refine ⟨rfl, rfl, rfl, ?_, hco, rfl, hco⟩
          congr 1
          rcases hof with h0 | h1
          · rw [h0, if_neg (show ¬ ((0 : ℝ) = cell) from hc.ne)]
            by_cases hk2 : k % 2 = 0
            · rw [if_pos hk2, if_neg (show ¬ (Nat.succ k % 2 = 0) by omega)]
            · rw [if_neg hk2, if_pos (show Nat.succ k % 2 = 0 by omega), if_pos rfl]
          · rw [h1, if_pos rfl]
            by_cases hk2 : k % 2 = 0
            · rw [if_pos hk2, if_neg (show ¬ (Nat.succ k % 2 = 0) by omega)]
            · rw [if_neg hk2, if_pos (show Nat.succ k % 2 = 0 by omega),
                if_neg (show ¬ ((0 : ℝ) = cell) from hc.ne)]
        · rw [if_neg hy2]
          have hfl0 : ⌊(rect.height - lineY) / cell⌋ = 0 := by
            rw [Int.floor_eq_zero_iff]
            constructor
            · exact div_nonneg (by linarith) hc.le
            · rw [div_lt_one hc]
              linarith
          rw [hfl0]
          simp
    · rw [if_neg hy]
      simp only [chessLoop]
      rw [if_neg hy]
      simp

lemma drawChessMoire_closed (rect : Rect) :
    drawChessMoire rect = (List.range (chessCountSpec rect)).map (chessLineSpec rect) := by
  have hc := chessCell_pos rect
  have h1c : 1 ≤ chessCell rect := by
    rcases chessCell_eq rect with h | h <;> rw [h] <;> norm_num
  have hfuel : rect.height < chessCell rect / 2 + ((chessFuel rect : ℕ) : ℝ) * chessCell rect := by
    have h1 : rect.height < ((chessFuel rect : ℕ) : ℝ) := by
      unfold chessFuel
      push_cast
      exact lt_toNat_ceil_add_one rect.height
    have h0 : (0 : ℝ) ≤ ((chessFuel rect : ℕ) : ℝ) := Nat.cast_nonneg _
    have h2 : ((chessFuel rect : ℕ) : ℝ) ≤ ((chessFuel rect : ℕ) : ℝ) * chessCell rect := by
      nlinarith
    linarith
  have hcl := chessLoop_closed rect (chessCell rect) hc (chessFuel rect)
      (chessCell rect / 2) 0 (Or.inl rfl) hfuel
  unfold drawChessMoire
  rw [hcl]
  unfold chessCountSpec chessLineSpec
  apply List.map_congr_left
  intro k _
  by_cases hk2 : k % 2 = 0
  · simp only [if_pos hk2]
  · simp only [if_neg hk2]
    rw [if_neg hc.ne]

lemma chessCount_iff (rect : Rect) (k : ℕ) :
    k < chessCountSpec rect ↔
      chessCell rect / 2 + (k : ℝ) * chessCell rect ≤ rect.height := by
  have hc := chessCell_pos rect
  unfold chessCountSpec
  split_ifs with hy
  · constructor
    · intro hk
      have hk' : (k : ℤ) ≤ ⌊(rect.height - chessCell rect / 2) / chessCell rect⌋ := by
        have h0 : 0 ≤ ⌊(rect.height - chessCell rect / 2) / chessCell rect⌋ :=
          Int.floor_nonneg.mpr (div_nonneg (by linarith) hc.le)
        omega
      have hk2 : ((k : ℤ) : ℝ) ≤ (rect.height - chessCell rect / 2) / chessCell rect :=
        le_trans (by exact_mod_cast Int.cast_le.mpr hk') (Int.floor_le _)
      rw [le_div_iff₀ hc] at hk2
      push_cast at hk2
      linarith
    · intro hk
      have h1 : (k : ℝ) * chessCell rect ≤ rect.height - chessCell rect / 2 := by
        linarith
      have h2 : ((k : ℤ) : ℝ) ≤ (rect.height - chessCell rect / 2) / chessCell rect := by
        rw [le_div_iff₀ hc]
        push_cast
        linarith
      have h3 : (k : ℤ) ≤ ⌊(rect.height - chessCell rect / 2) / chessCell rect⌋ :=
        Int.le_floor.mpr h2
      omega
  · constructor
    · omega
    · intro hk
      exfalso
      have h0 : (0 : ℝ) ≤ (k : ℝ) * chessCell rect := by positivity
      push_neg at hy
      linarith

/-- C6: `drawChessMoire` draws exactly the lines
`k = 0, 1, …`: line width and dash period `cellSize`, dash pattern
`[cellSize, cellSize]`, start offset alternating strictly 0, cellSize,
0, … from 0, vertical position `cellSize/2 + k·cellSize`, spacing
`cellSize`; a line is drawn exactly while its position is ≤ rect.height. -/
theorem C6_chess_lines (rect : Rect) :
    drawChessMoire rect = (List.range (chessCountSpec rect)).map (chessLineSpec rect) ∧
    ∀ k : ℕ, k < chessCountSpec rect ↔
      chessCell rect / 2 + (k : ℝ) * chessCell rect ≤ rect.height :=
  ⟨drawChessMoire_closed rect, fun k => chessCount_iff rect k⟩

/-- C10: the chess moiré output is independent of `rect.topLeftY` (only
`topLeftX`, `width` and `height` are read), and the composer always builds
the frame rect with `topLeftY = 0`. -/
theorem C10_chess_ignores_topLeftY (r₁ r₂ : Rect)
    (hx : r₁.topLeftX = r₂.topLeftX) (hw : r₁.width = r₂.width)
    (hh : r₁.height = r₂.height) :
    drawChessMoire r₁ = drawChessMoire r₂ ∧ ∀ W H : ℝ, (frameRect W H).topLeftY = 0 := by
  refine ⟨?_, fun _ _ => rfl⟩
  rw [drawChessMoire_closed, drawChessMoire_closed]
  have hcell : chessCell r₁ = chessCell r₂ := by
    unfold chessCell
    rw [hh]
  have hcnt : chessCountSpec r₁ = chessCountSpec r₂ := by
    unfold chessCountSpec
    rw [hcell, hh]
  rw [hcnt]
  apply List.map_congr_left
  intro k _
  unfold chessLineSpec
  rw [hcell, hx, hw]

theorem C10_chess_ignores_topLeftY_witness :
    drawChessMoire ⟨0, 0, 8, 6⟩ = drawChessMoire ⟨0, 5, 8, 6⟩ ∧
    ∀ W H : ℝ, (frameRect W H).topLeftY = 0 :=
  C10_chess_ignores_topLeftY ⟨0, 0, 8, 6⟩ ⟨0, 5, 8, 6⟩ rfl rfl rfl

/-- A canvas is an assignment of a color to every point of the plane; only
the points inside the canvas bounds are ever repainted. -/
def Canvas : Type := ℝ × ℝ → Color

/-- The pixel area of a `W × H` canvas. -/
def inCanvas (W H : ℝ) (p : ℝ × ℝ) : Prop :=
  0 ≤ p.1 ∧ p.1 < W ∧ 0 ≤ p.2 ∧ p.2 < H

/-- The pixel area covered by `fillRect(x, y, w, h)` / `clearRect(x, y, w, h)`. -/
def inRectRegion (x y w h : ℝ) (p : ℝ × ℝ) : Prop :=
  x ≤ p.1 ∧ p.1 < x + w ∧ y ≤ p.2 ∧ p.2 < y + h

/-- Whether arc length `s` along a stroked path falls on an "on" dash of the
dash pattern (`none` is a solid line, i.e. `setLineDash([])`). -/
def dashOn : Option (ℝ × ℝ) → ℝ → Prop
  | none, _ => True
  | some (a, b), s => a + b ≤ 0 ∨ s - (a + b) * ((⌊s / (a + b)⌋ : ℤ) : ℝ) < a

/-- The pixel area covered by a stroked (possibly dashed) line of width
`lineW` from `(fx, fy)` to `(tx, ty)`. -/
def strokeRegion (lineW : ℝ) (dash : Option (ℝ × ℝ)) (fx fy tx ty : ℝ)
    (p : ℝ × ℝ) : Prop :=
  ∃ t : ℝ, 0 ≤ t ∧ t ≤ 1 ∧
    dashOn dash (t * Real.sqrt ((tx - fx) ^ 2 + (ty - fy) ^ 2)) ∧
    Real.sqrt ((p.1 - (fx + t * (tx - fx))) ^ 2 + (p.2 - (fy + t * (ty - fy))) ^ 2) ≤
      lineW / 2

/-- The region of the plane affected by one paint operation. -/
def opRegion : PaintOp → ℝ × ℝ → Prop
  | .clearRect x y w h, p => inRectRegion x y w h p
  | .fillRect _ x y w h, p => inRectRegion x y w h p
  | .gradFillRect _ _ _ _ x y w h, p => inRectRegion x y w h p
  | .strokeLine _ lineW dash fx fy tx ty, p => strokeRegion lineW dash fx fy tx ty p

/-- Componentwise linear interpolation between two colors. -/
noncomputable def lerpColor (c₁ c₂ : Color) (t : ℝ) : Color :=
  ⟨c₁.r + (c₂.r - c₁.r) * t, c₁.g + (c₂.g - c₁.g) * t,
   c₁.b + (c₂.b - c₁.b) * t, c₁.a + (c₂.a - c₁.a) * t⟩

/-- The color stops of the ring gradient (index.js:138-143):
`0 → #fff0, 0.1 → #fff, 0.45 → #000, 0.55 → #000, 0.9 → #fff, 1 → #fff0`,
linearly interpolated on the gradient parameter `t ∈ [0, 1]`. -/
noncomputable def ringGradientColor (t : ℝ) : Color :=
  if t ≤ 0.1 then lerpColor whiteClear white (t / 0.1)
  else if t ≤ 0.45 then lerpColor white black ((t - 0.1) / 0.35)
  else if t ≤ 0.55 then black
  else if t ≤ 0.9 then lerpColor black white ((t - 0.55) / 0.35)
  else lerpColor white whiteClear ((t - 0.9) / 0.1)

/-- Radial-gradient color at point `p` for a gradient between radii `inR`
and `outR` centered at `(gx, gy)`. -/
noncomputable def ringGradAt (gx gy inR outR : ℝ) (p : ℝ × ℝ) : Color :=
  let d := Real.sqrt ((p.1 - gx) ^ 2 + (p.2 - gy) ^ 2)
  ringGradientColor (if d ≤ inR then 0 else if outR ≤ d then 1 else (d - inR) / (outR - inR))

/-- Source-over alpha compositing of `src` onto `dst`. -/
noncomputable def sourceOver (src dst : Color) : Color :=
  if src.a + dst.a * (1 - src.a) = 0 then ⟨0, 0, 0, 0⟩
  else ⟨(src.r * src.a + dst.r * dst.a * (1 - src.a)) / (src.a + dst.a * (1 - src.a)),
        (src.g * src.a + dst.g * dst.a * (1 - src.a)) / (src.a + dst.a * (1 - src.a)),
        (src.b * src.a + dst.b * dst.a * (1 - src.a)) / (src.a + dst.a * (1 - src.a)),
        src.a + dst.a * (1 - src.a)⟩

/-- The color an operation writes at a point it covers, given the color
`dst` already there. -/
noncomputable def opColor : PaintOp → ℝ × ℝ → Color → Color
  | .clearRect _ _ _ _, _, _ => transparent
  | .fillRect c _ _ _ _, _, dst => sourceOver c dst
  | .gradFillRect gx gy inR outR _ _ _ _, p, dst => sourceOver (ringGradAt gx gy inR outR p) dst
  | .strokeLine c _ _ _ _ _ _, _, dst => sourceOver c dst

/-- Pointwise canvas semantics of one operation on a `W × H` canvas: points
inside both the canvas bounds and the operation's region are repainted,
every other point keeps its color. -/
noncomputable def applyOp (W H : ℝ) (op : PaintOp) (s : Canvas) : Canvas :=
  fun p => if inCanvas W H p ∧ opRegion op p then opColor op p (s p) else s p

/-- Running a list of operations left to right. -/
noncomputable def applyOps (W H : ℝ) (ops : List PaintOp) (s : Canvas) : Canvas :=
  ops.foldl (fun c op => applyOp W H op c) s

/-- `drawLine` (index.js:94-101): strokeStyle `#000`, solid
(`setLineDash([])`); the line width is the ambient `ctx.lineWidth` set by
the caller and is passed here explicitly. -/
def drawLineOp (lineW fromX fromY toX toY : ℝ) : PaintOp :=
  PaintOp.strokeLine black lineW none fromX fromY toX toY

/-- `drawTable` (index.js:208-260) as the list of paint operations of one
full render on a `W × H` canvas: clear, black background, white frame
(`drawRect`, index.js:174-177), chess moiré, center ring target, four
corner ring targets, three horizontal and three vertical guide lines. -/
noncomputable def drawTable (W H : ℝ) : List PaintOp :=
  PaintOp.clearRect 0 0 W H ::
  PaintOp.fillRect black 0 0 W H ::
  PaintOp.fillRect white (frameRect W H).topLeftX (frameRect W H).topLeftY
    (frameRect W H).width (frameRect W H).height ::
  (drawChessMoire (frameRect W H) ++
   drawTargetMoire ((frameRect W H).topLeftX + (frameRect W H).width / 2)
     ((frameRect W H).height / 2) (centerTargetOutR W H) (frameRect W H) ++
   drawTargetMoire ((frameRect W H).topLeftX + cornerTargetRad W H)
     ((frameRect W H).topLeftY + cornerTargetRad W H) (cornerTargetRad W H)
     (frameRect W H) ++
   drawTargetMoire ((frameRect W H).topLeftX + (frameRect W H).width - cornerTargetRad W H)
     ((frameRect W H).topLeftY + cornerTargetRad W H) (cornerTargetRad W H)
     (frameRect W H) ++
   drawTargetMoire ((frameRect W H).topLeftX + cornerTargetRad W H)
     ((frameRect W H).topLeftY + (frameRect W H).height - cornerTargetRad W H)
     (cornerTargetRad W H) (frameRect W H) ++
   drawTargetMoire ((frameRect W H).topLeftX + (frameRect W H).width - cornerTargetRad W H)
     ((frameRect W H).topLeftY + (frameRect W H).height - cornerTargetRad W H)
     (cornerTargetRad W H) (frameRect W H) ++
   [drawLineOp (getPPLineWidth (frameRect W H).height) (frameRect W H).topLeftX
      ((frameRect W H).height / 2) ((frameRect W H).topLeftX + (frameRect W H).width)
      ((frameRect W H).height / 2),
    drawLineOp (getPPLineWidth (frameRect W H).height) (frameRect W H).topLeftX
      ((frameRect W H).topLeftY + cornerTargetRad W H)
      ((frameRect W H).topLeftX + (frameRect W H).width)
      ((frameRect W H).topLeftY + cornerTargetRad W H),
    drawLineOp (getPPLineWidth (frameRect W H).height) (frameRect W H).topLeftX
      ((frameRect W H).topLeftY + (frameRect W H).height - cornerTargetRad W H)
      ((frameRect W H).topLeftX + (frameRect W H).width)
      ((frameRect W H).topLeftY + (frameRect W H).height - cornerTargetRad W H),
    drawLineOp (getPPLineWidth (frameRect W H).width)
      ((frameRect W H).topLeftX + (frameRect W H).width / 2) (frameRect W H).topLeftY
      ((frameRect W H).topLeftX + (frameRect W H).width / 2) (frameRect W H).height,
    drawLineOp (getPPLineWidth (frameRect W H).width)
      ((frameRect W H).topLeftX + cornerTargetRad W H) (frameRect W H).topLeftY
      ((frameRect W H).topLeftX + cornerTargetRad W H) (frameRect W H).height,
    drawLineOp (getPPLineWidth (frameRect W H).width)
      ((frameRect W H).topLeftX + (frameRect W H).width - cornerTargetRad W H)
      (frameRect W H).topLeftY
      ((frameRect W H).topLeftX + (frameRect W H).width - cornerTargetRad W H)
      (frameRect W H).height])

/-- One full render: `renderTable(surfaceWidth, surfaceHeight)`. -/
noncomputable def renderTable (W H : ℝ) (s : Canvas) : Canvas :=
  applyOps W H (drawTable W H) s

lemma applyOp_point_eq (W H : ℝ) (op : PaintOp) (s t : Canvas) (p : ℝ × ℝ)
    (h : s p = t p) : applyOp W H op s p = applyOp W H op t p := by
  unfold applyOp
  rw [h]

lemma applyOps_point_eq (W H : ℝ) (ops : List PaintOp) :
    ∀ (s t : Canvas) (p : ℝ × ℝ), s p = t p →
      applyOps W H ops s p = applyOps W H ops t p := by
  induction ops with
  | nil => intro s t p h; exact h
  | cons op rest ih =>
    intro s t p h
    show applyOps W H rest (applyOp W H op s) p = applyOps W H rest (applyOp W H op t) p
    exact ih _ _ p (applyOp_point_eq W H op s t p h)

lemma applyOp_outside (W H : ℝ) (op : PaintOp) (s : Canvas) (p : ℝ × ℝ)
    (h : ¬ inCanvas W H p) : applyOp W H op s p = s p := by
  unfold applyOp
  rw [if_neg (fun hc => h hc.1)]

lemma applyOps_outside (W H : ℝ) (ops : List PaintOp) :
    ∀ (s : Canvas) (p : ℝ × ℝ), ¬ inCanvas W H p → applyOps W H ops s p = s p := by
  induction ops with
  | nil => intro s p _; rfl
  | cons op rest ih =>
    intro s p hp
    show applyOps W H rest (applyOp W H op s) p = s p
    rw [ih _ p hp, applyOp_outside W H op s p hp]

lemma renderTable_point_det (W H : ℝ) (s t : Canvas) (p : ℝ × ℝ)
    (hp : inCanvas W H p) : renderTable W H s p = renderTable W H t p := by
  show applyOps W H (drawTable W H) s p = applyOps W H (drawTable W H) t p
  rw [drawTable]
  show applyOps W H _ (applyOp W H (PaintOp.clearRect 0 0 W H) s) p =
    applyOps W H _ (applyOp W H (PaintOp.clearRect 0 0 W H) t) p
  apply applyOps_point_eq
  have hreg : inCanvas W H p ∧ opRegion (PaintOp.clearRect 0 0 W H) p := by
    refine ⟨hp, ?_⟩
    obtain ⟨h1, h2, h3, h4⟩ := hp
    exact ⟨h1, by rwa [zero_add], h3, by rwa [zero_add]⟩
  unfold applyOp
  rw [if_pos hreg, if_pos hreg]
  rfl

lemma renderTable_idem (W H : ℝ) (s : Canvas) :
    renderTable W H (renderTable W H s) = renderTable W H s := by
  funext p
  by_cases hp : inCanvas W H p
  · exact renderTable_point_det W H _ s p hp
  · show applyOps W H (drawTable W H) (renderTable W H s) p = renderTable W H s p
    exact applyOps_outside W H _ _ p hp

/-- C7: the table render is fully deterministic in `(W, H)` and idempotent:
re-rendering repaints every canvas point from scratch (the render starts
with a full `clearRect`), so the result does not depend on the previous
surface contents, and rendering twice equals rendering once. -/
theorem C7_render_idempotent (W H : ℝ) (s t : Canvas) :
    (∀ p : ℝ × ℝ, inCanvas W H p → renderTable W H s p = renderTable W H t p) ∧
    renderTable W H (renderTable W H s) = renderTable W H s :=
  ⟨fun p hp => renderTable_point_det W H s t p hp, renderTable_idem W H s⟩

theorem C7_render_idempotent_witness :
    (∀ p : ℝ × ℝ, inCanvas 1200 900 p →
      renderTable 1200 900 (fun _ => black) p = renderTable 1200 900 (fun _ => white) p) ∧
    renderTable 1200 900 (renderTable 1200 900 (fun _ => black)) =
      renderTable 1200 900 (fun _ => black) :=
  C7_render_idempotent 1200 900 (fun _ => black) (fun _ => white)

/-- C8: with `W = 1000`, `H = 900` the frame width 1200 exceeds the surface
width and the unguarded layout places the frame at `topLeftX = -100`; the
render still issues the white frame fill on this negative-origin rect
(operation number 2 of the op list), and every rectangle fill — plain or
gradient — repaints only points inside its rect. -/
theorem C8_negative_border :
    (frameRect 1000 900).width = 1200 ∧
    (frameRect 1000 900).topLeftX = -100 ∧
    (drawTable 1000 900).get? 2 = some (PaintOp.fillRect white (-100) 0 1200 900) ∧
    (∀ (W H : ℝ) (c : Color) (x y w h : ℝ) (s : Canvas) (p : ℝ × ℝ),
      ¬ inRectRegion x y w h p → applyOp W H (PaintOp.fillRect c x y w h) s p = s p) ∧
    (∀ (W H gx gy inR outR x y w h : ℝ) (s : Canvas) (p : ℝ × ℝ),
      ¬ inRectRegion x y w h p →
        applyOp W H (PaintOp.gradFillRect gx gy inR outR x y w h) s p = s p) := by
  refine ⟨?_, ?_, ?_, ?_, ?_⟩
  · rw [frameRect_1000_900]
  · rw [frameRect_1000_900]
  · rw [drawTable, frameRect_1000_900]
    rfl
  · intro W H c x y w h s p hp
    unfold applyOp
    rw [if_neg (fun hc => hp hc.2)]
  · intro W H gx gy inR outR x y w h s p hp
    unfold applyOp
    rw [if_neg (fun hc => hp hc.2)]

theorem C8_negative_border_witness :
    ¬ inRectRegion 0 0 1 1 ((5 : ℝ), (5 : ℝ)) ∧
    applyOp 10 10 (PaintOp.fillRect black 0 0 1 1) (fun _ => white) ((5 : ℝ), (5 : ℝ)) =
      (fun _ => white : Canvas) ((5 : ℝ), (5 : ℝ)) := by
  have hn : ¬ inRectRegion 0 0 1 1 ((5 : ℝ), (5 : ℝ)) := by
    rintro ⟨-, h, -, -⟩
    norm_num at h
  exact ⟨hn, C8_negative_border.2.2.2.1 10 10 black 0 0 1 1 (fun _ => white) (5, 5) hn⟩

lemma sqrt_two_lt_two : Real.sqrt 2 < 2 := by
  nlinarith [Real.sq_sqrt (show (0 : ℝ) ≤ 2 by norm_num), Real.sqrt_nonneg 2]

/-- Bounds on the corner solve for a "wide" rect (`height ≤ width ≤ 2·height`,
which holds for every frame rect): the returned diameter is strictly between
0 and the rect height. -/
lemma corner_size_bounds (rect : Rect) (hb : 0 < rect.height)
    (hba : rect.height ≤ rect.width) (_hab : rect.width ≤ 2 * rect.height) :
    0 < getCornerTargetSize rect ∧ getCornerTargetSize rect < rect.height := by
  have hpi := Real.pi_pos
  have hb2 : 0 < rect.height / 2 := by linarith
  have hs0 : 0 ≤ -(rect.height / 2 - rect.width / 2) / (rect.height / 2) := by
    apply div_nonneg _ hb2.le
    linarith
  have harc0 : 0 ≤ Real.arcsin (-(rect.height / 2 - rect.width / 2) / (rect.height / 2)) :=
    Real.arcsin_nonneg.mpr hs0
  have harc2 : Real.arcsin (-(rect.height / 2 - rect.width / 2) / (rect.height / 2)) ≤ π / 2 :=
    Real.arcsin_le_pi_div_two _
  set y := π / 4 - Real.arcsin (-(rect.height / 2 - rect.width / 2) / (rect.height / 2))
    with hydef
  have hy1 : y ≤ π / 4 := by rw [hydef]; linarith
  have hy2 : -(π / 4) ≤ y := by rw [hydef]; linarith
  have hsin_le : Real.sin y ≤ Real.sin (π / 4) :=
    Real.sin_le_sin_of_le_of_le_pi_div_two (by linarith) (by linarith) hy1
  have hsin_ge : Real.sin (-(π / 4)) ≤ Real.sin y :=
    Real.sin_le_sin_of_le_of_le_pi_div_two (by linarith) (by linarith) hy2
  rw [Real.sin_neg, Real.sin_pi_div_four] at hsin_ge
  rw [Real.sin_pi_div_four] at hsin_le
  have hsq := sqrt_two_lt_two
  have hlt1 : Real.sin y < 1 := by linarith
  have hgtm1 : -1 < Real.sin y := by linarith
  have hval : getCornerTargetSize rect =
      rect.height / 2 - rect.height / 2 * Real.sin y := by
    rw [hydef]
    rfl
  constructor
  · rw [hval]
    have h1 : (0 : ℝ) < rect.height / 2 * (1 - Real.sin y) :=
      mul_pos hb2 (by linarith)
    nlinarith
  · rw [hval]
    have h1 : (0 : ℝ) < rect.height / 2 * (1 + Real.sin y) :=
      mul_pos hb2 (by linarith)
    nlinarith

/-- C5: on every frame rect the corner-target radius is positive and at most
half the frame's shorter dimension; for the 800×600 rect the radius is
positive and below `b = 300`. -/
theorem C5_corner_radius_bound :
    (∀ W Hn : ℕ, 0 < Hn →
      0 < cornerTargetRad (W : ℝ) (Hn : ℝ) ∧
      cornerTargetRad (W : ℝ) (Hn : ℝ) ≤
        min (frameRect (W : ℝ) (Hn : ℝ)).width (frameRect (W : ℝ) (Hn : ℝ)).height / 2) ∧
    (0 < getCornerTargetSize ⟨0, 0, 800, 600⟩ / 2 ∧
      getCornerTargetSize ⟨0, 0, 800, 600⟩ / 2 < 300) := by
  constructor
  · intro W Hn hH
    have hH1 : (1 : ℝ) ≤ (Hn : ℝ) := by exact_mod_cast hH
    have hfw_ge : (Hn : ℝ) ≤ ((⌊(Hn : ℝ) * 4 / 3⌋ : ℤ) : ℝ) := by
      have h1 : ((Hn : ℤ) : ℝ) ≤ (Hn : ℝ) * 4 / 3 := by push_cast; linarith
      exact_mod_cast Int.le_floor.mpr h1
    have hfw_le : ((⌊(Hn : ℝ) * 4 / 3⌋ : ℤ) : ℝ) ≤ 2 * (Hn : ℝ) := by
      have h1 : ((⌊(Hn : ℝ) * 4 / 3⌋ : ℤ) : ℝ) ≤ (Hn : ℝ) * 4 / 3 := Int.floor_le _
      linarith
    have hb := corner_size_bounds (frameRect (W : ℝ) (Hn : ℝ))
      (show (0 : ℝ) < (Hn : ℝ) by linarith)
      (show (Hn : ℝ) ≤ ((⌊(Hn : ℝ) * 4 / 3⌋ : ℤ) : ℝ) from hfw_ge)
      (show ((⌊(Hn : ℝ) * 4 / 3⌋ : ℤ) : ℝ) ≤ 2 * (Hn : ℝ) from hfw_le)
    have hmin : min (frameRect (W : ℝ) (Hn : ℝ)).width (frameRect (W : ℝ) (Hn : ℝ)).height =
        (frameRect (W : ℝ) (Hn : ℝ)).height :=
      min_eq_right hfw_ge
    have hheq : (frameRect (W : ℝ) (Hn : ℝ)).height = (Hn : ℝ) := rfl
    rw [hheq] at hb
    unfold cornerTargetRad
    rw [hmin, hheq]
    constructor
    · linarith [hb.1]
    · linarith [hb.2]
  · have hb := corner_size_bounds ⟨0, 0, 800, 600⟩
      (show (0 : ℝ) < 600 by norm_num)
      (show (600 : ℝ) ≤ 800 by norm_num)
      (show (800 : ℝ) ≤ 2 * 600 by norm_num)
    have hheq : (Rect.mk 0 0 800 600).height = (600 : ℝ) := rfl
    rw [hheq] at hb
    constructor
    · linarith [hb.1]
    · linarith [hb.2]

theorem C5_corner_radius_bound_witness :
    0 < (900 : ℕ) ∧
    (0 < cornerTargetRad ((1200 : ℕ) : ℝ) ((900 : ℕ) : ℝ) ∧
      cornerTargetRad ((1200 : ℕ) : ℝ) ((900 : ℕ) : ℝ) ≤
        min (frameRect ((1200 : ℕ) : ℝ) ((900 : ℕ) : ℝ)).width
          (frameRect ((1200 : ℕ) : ℝ) ((900 : ℕ) : ℝ)).height / 2) :=
  ⟨by norm_num, C5_corner_radius_bound.1 1200 900 (by norm_num)⟩

theorem C6_chess_lines_witness :
    drawChessMoire ⟨0, 0, 8, 6⟩ =
      (List.range (chessCountSpec ⟨0, 0, 8, 6⟩)).map (chessLineSpec ⟨0, 0, 8, 6⟩) ∧
    ∀ k : ℕ, k < chessCountSpec ⟨0, 0, 8, 6⟩ ↔
      chessCell ⟨0, 0, 8, 6⟩ / 2 + (k : ℝ) * chessCell ⟨0, 0, 8, 6⟩ ≤
        (Rect.mk 0 0 8 6).height :=
  C6_chess_lines ⟨0, 0, 8, 6⟩
